import Mathlib

/-!
Verification of the argument-conversion and entity-resolution engine of
`discord/ext/commands/converter.py` and `discord/basic_emoji.py`, via a
shallow embedding of the relevant functions.

Conventions used throughout the embedding:
* Python strings are Lean `String`s (`str.lower()` is modelled as a
  per-character `Char.toLower` map, which agrees with Python on ASCII data);
* Python `None`/value results are `Option`s, raised command errors are the
  `Except` error component;
* Python `float` arithmetic appearing in the fuzzy matcher and the duration
  converter is modelled exactly with `ℚ`;
* cache/network collaborators (guild stores, HTTP fetches) are abstract
  fields of explicit context structures.
-/

namespace DiscordConv

/-- Model of `str.lower()` (per-character ASCII lowering). -/
def strLower (s : String) : String := String.mk (s.data.map Char.toLower)

/-- The value produced by a `Range` conversion: the annotation is `int`,
`float` or `str`, so the converted value is a number (modelled in `ℚ`) or
the token itself. -/
inductive RangeVal where
  | num (q : ℚ)
  | text (s : String)
deriving DecidableEq, Repr

/-- The classified command errors raised by the converters modelled here
(the carried payloads follow the source constructors). -/
inductive CommandError where
  | badArgument (msg : String)
  | badBoolArgument (lowered : String)
  | memberNotFound (arg : String)
  | emojiNotFound (arg : String)
  | rangeError (value : RangeVal) (minB maxB : Option ℚ)
deriving DecidableEq, Repr

/-- Embedding of `_convert_to_bool` (converter.py:1484-1491): lower the
token, test it against the fixed truthy and falsy keyword tuples, and
otherwise raise `BadBoolArgument` carrying the lowered token. -/
def convert_to_bool (argument : String) : Except CommandError Bool :=
  let lowered := strLower argument
  if lowered ∈ ["yes", "y", "true", "t", "1", "enable", "on"] then
    .ok true
  else if lowered ∈ ["no", "n", "false", "f", "0", "disable", "off"] then
    .ok false
  else
    .error (.badBoolArgument lowered)

/-- Embedding of the `BasicEmoji` data class (basic_emoji.py). -/
structure BasicEmoji where
  name : String
  is_custom_emoji : Bool

/-- A Python value that a `BasicEmoji` may be compared against: either
another `BasicEmoji` or any non-`BasicEmoji` object (represented by a tag). -/
inductive PyVal where
  | emoji (e : BasicEmoji)
  | otherObj (tag : Nat)

/-- Embedding of `BasicEmoji.__eq__` (basic_emoji.py:22-23): equal to a
`BasicEmoji` with the same `name`, and never equal to anything else. -/
def basicEmojiEq (e : BasicEmoji) (v : PyVal) : Bool :=
  match v with
  | .emoji e2 => e.name == e2.name
  | .otherObj _ => false

/-- Embedding of `BasicEmoji.__hash__` (basic_emoji.py:28-29): the hash of
the `name` field, for an arbitrary underlying string hash `h`. -/
def basicEmojiHash (h : String → Nat) (e : BasicEmoji) : Nat := h e.name

/-- C9: For every token whose lowercasing lies in the truthy set the boolean
conversion returns `true`; for every token whose lowercasing lies in the
falsy set it returns `false`; for every other token it fails with the
bad-boolean error carrying the lowered token. -/
theorem c9_bool_conversion (s : String) :
    (strLower s ∈ ["yes", "y", "true", "t", "1", "enable", "on"] →
      convert_to_bool s = .ok true) ∧
    (strLower s ∈ ["no", "n", "false", "f", "0", "disable", "off"] →
      convert_to_bool s = .ok false) ∧
    (strLower s ∉ ["yes", "y", "true", "t", "1", "enable", "on"] →
      strLower s ∉ ["no", "n", "false", "f", "0", "disable", "off"] →
      convert_to_bool s = .error (.badBoolArgument (strLower s))) := by
  refine ⟨fun h1 => ?_, fun h2 => ?_, fun h1 h2 => ?_⟩
  · simp only [convert_to_bool, if_pos h1]
  · have h1 : strLower s ∉ ["yes", "y", "true", "t", "1", "enable", "on"] := by
      intro h1
      simp only [List.mem_cons, List.not_mem_nil, or_false] at h1 h2
      rcases h1 with h | h | h | h | h | h | h <;>
        rcases h2 with g | g | g | g | g | g | g <;> (rw [h] at g; simp at g)
    simp only [convert_to_bool, if_neg h1, if_pos h2]
  · simp only [convert_to_bool, if_neg h1, if_neg h2]

/-- Witness for C9 at concrete tokens. -/
theorem c9_bool_conversion_witness :
    convert_to_bool "YES" = .ok true ∧
    convert_to_bool "Off" = .ok false ∧
    convert_to_bool "maybe" = .error (.badBoolArgument "maybe") := by
  refine ⟨(c9_bool_conversion "YES").1 (by decide),
          (c9_bool_conversion "Off").2.1 (by decide),
          (c9_bool_conversion "maybe").2.2 (by decide) (by decide)⟩

/-- C10: `BasicEmoji` equality and hashing are determined solely by the
`name` field: two values are equal iff their names are equal (the
`is_custom_emoji` flag is ignored), a `BasicEmoji` is never equal to a
non-`BasicEmoji` value, and equal values have equal hashes. -/
theorem c10_basic_emoji_eq (e1 e2 : BasicEmoji) :
    (basicEmojiEq e1 (.emoji e2) = true ↔ e1.name = e2.name) ∧
    (∀ tag, basicEmojiEq e1 (.otherObj tag) = false) ∧
    (∀ h : String → Nat, basicEmojiEq e1 (.emoji e2) = true →
      basicEmojiHash h e1 = basicEmojiHash h e2) := by
  refine ⟨?_, fun _ => rfl, fun h heq => ?_⟩
  · simp [basicEmojiEq]
  · have : e1.name = e2.name := by simpa [basicEmojiEq] using heq
    simp [basicEmojiHash, this]

/-- Witness for C10: two emojis sharing a name but differing in the custom
flag are equal and share hashes; a third with another name is not equal. -/
theorem c10_basic_emoji_eq_witness :
    basicEmojiEq ⟨"grin", true⟩ (.emoji ⟨"grin", false⟩) = true ∧
    basicEmojiHash String.length ⟨"grin", true⟩ =
      basicEmojiHash String.length ⟨"grin", false⟩ := by
  refine ⟨(c10_basic_emoji_eq ⟨"grin", true⟩ ⟨"grin", false⟩).1.mpr rfl,
    (c10_basic_emoji_eq ⟨"grin", true⟩ ⟨"grin", false⟩).2.2 String.length
      ((c10_basic_emoji_eq ⟨"grin", true⟩ ⟨"grin", false⟩).1.mpr rfl)⟩

/-! ## Entity resolution: ID precedence (MemberConverter, EmojiConverter) -/

/-- Python's `a or b` on two optional lookup results (a matched object is
always truthy): the first result if present, else the second. -/
def firstSome {α : Type} (a b : Option α) : Option α :=
  match a with
  | some x => some x
  | none => b

/-- Decimal value of a digit list (how `int(...)` reads a digit string). -/
def digitsToNat (l : List Char) : Nat :=
  l.foldl (fun acc c => 10 * acc + (c.toNat - 48)) 0

/-- Parse a non-empty all-digit character list as a natural number,
mirroring `int(match.group(1))` on a `[0-9]+` capture. -/
def decDigits? (l : List Char) : Option Nat :=
  if l ≠ [] ∧ l.all Char.isDigit then some (digitsToNat l) else none

/-- Embedding of `IDConverter._get_id_match` (converter.py:157-163), i.e.
`re.match(r'([0-9]{15,20})$', argument)` followed by `int(...)` on the
group: the whole token is 15 to 20 decimal digits. -/
def idMatch (s : String) : Option Nat :=
  if 15 ≤ s.data.length ∧ s.data.length ≤ 20 then decDigits? s.data else none

/-- Embedding of the member mention pattern `<@!?([0-9]{15,20})>$`
(converter.py:259). -/
def memberMentionId (s : String) : Option Nat :=
  match s.data with
  | '<' :: '@' :: rest =>
    let rest2 := match rest with
      | '!' :: r => r
      | r => r
    match rest2.getLast? with
    | some '>' =>
      let core := rest2.dropLast
      if 15 ≤ core.length ∧ core.length ≤ 20 then decDigits? core else none
    | _ => none
  | _ => none

/-- Tail of the custom-emoji pattern after `<a?:`: a 1-32 character
`[a-zA-Z0-9_]` name, a colon, 15-20 digits, and the closing `>`. -/
def emojiNameId (r : List Char) : Option Nat :=
  let nm := r.takeWhile (fun c => c.isAlphanum || c == '_')
  let rest := r.dropWhile (fun c => c.isAlphanum || c == '_')
  match rest with
  | ':' :: tail =>
    match tail.getLast? with
    | some '>' =>
      let ids := tail.dropLast
      if 1 ≤ nm.length ∧ nm.length ≤ 32 ∧ 15 ≤ ids.length ∧ ids.length ≤ 20
      then decDigits? ids else none
    | _ => none
  | _ => none

/-- Embedding of the custom-emoji pattern
`<a?:[a-zA-Z0-9\_]{1,32}:([0-9]{15,20})>$` (converter.py:1011). -/
def emojiMentionId (s : String) : Option Nat :=
  match s.data with
  | '<' :: 'a' :: ':' :: r => emojiNameId r
  | '<' :: ':' :: r => emojiNameId r
  | _ => none

/-- A cached guild member (only the fields the converter reads). -/
structure Member where
  id : Nat
  name : String
deriving DecidableEq, Repr

/-- The member-lookup interface of a guild: `get_member` (by id) and
`get_member_named` (exact-name lookup, converter.py:267). -/
structure GuildM where
  getMember : Nat → Option Member
  getMemberNamed : String → Option Member

/-- Context for `MemberConverter.convert`: the optional local guild, the
bot's guild list (global scope), the invoking message's mention list, and
the two out-of-band fetch hooks `query_member_by_id` /
`query_member_named` (both may miss). Mention entries are modelled as
members, matching the converter's `isinstance` refinement. -/
structure MemberCtx where
  guild : Option GuildM
  botGuilds : List GuildM
  mentions : List Member
  queryById : Nat → Option Member
  queryByName : String → Option Member

/-- Embedding of `_get_from_guilds(bot, 'get_member', id)`
(converter.py:99-105): first guild with a truthy result. -/
def getFromGuildsById (guilds : List GuildM) (uid : Nat) : Option Member :=
  match guilds with
  | [] => none
  | g :: rest =>
    match g.getMember uid with
    | some m => some m
    | none => getFromGuildsById rest uid

/-- Embedding of `_get_from_guilds(bot, 'get_member_named', argument)`. -/
def getFromGuildsNamed (guilds : List GuildM) (arg : String) : Option Member :=
  match guilds with
  | [] => none
  | g :: rest =>
    match g.getMemberNamed arg with
    | some m => some m
    | none => getFromGuildsNamed rest arg

/-- Embedding of `MemberConverter.convert` (converter.py:257-289): try the
raw-ID pattern, then the mention pattern; on a match resolve by the parsed
id (guild cache then message mentions when a guild is present, else the
global guild list), otherwise resolve by exact name; on a cache miss with a
guild present fall back to the by-id or by-name gateway query. -/
def memberConvert (ctx : MemberCtx) (argument : String) :
    Except CommandError Member :=
  let m := firstSome (idMatch argument) (memberMentionId argument)
  let pair : Option Member × Option Nat :=
    match m with
    | none =>
      (match ctx.guild with
       | some g => g.getMemberNamed argument
       | none => getFromGuildsNamed ctx.botGuilds argument, none)
    | some uid =>
      (match ctx.guild with
       | some g =>
          firstSome (g.getMember uid)
            (ctx.mentions.find? (fun mem => mem.id == uid))
       | none => getFromGuildsById ctx.botGuilds uid, some uid)
  match pair.1 with
  | some mem => .ok mem
  | none =>
    match ctx.guild with
    | none => .error (.memberNotFound argument)
    | some _ =>
      let fetched :=
        match pair.2 with
        | some uid => ctx.queryById uid
        | none => ctx.queryByName argument
      match fetched with
      | some mem => .ok mem
      | none => .error (.memberNotFound argument)

/-- A cached emoji (only the fields the converter reads). -/
structure Emoji where
  id : Nat
  name : String
deriving DecidableEq, Repr

/-- The emoji collection of a guild (local scope). -/
structure GuildE where
  emojis : List Emoji
deriving DecidableEq, Repr

/-- Context for `EmojiConverter.convert`: the optional local guild, the
bot's global emoji collection (`bot.emojis`), and the global by-id cache
lookup `bot.get_emoji`. -/
structure EmojiCtx where
  guild : Option GuildE
  botEmojis : List Emoji
  getEmoji : Nat → Option Emoji

/-- Embedding of `EmojiConverter.convert` (converter.py:1010-1032): try the
raw-ID pattern, then the emoji mention pattern; on a match look the id up
in the global cache via `bot.get_emoji`; with no match fall back to exact
name lookup in the local guild's emojis and then in `bot.emojis`. -/
def emojiConvert (ctx : EmojiCtx) (argument : String) :
    Except CommandError Emoji :=
  let m := firstSome (idMatch argument) (emojiMentionId argument)
  let result : Option Emoji :=
    match m with
    | none =>
      let r :=
        match ctx.guild with
        | some g => g.emojis.find? (fun e => e.name == argument)
        | none => none
      firstSome r (ctx.botEmojis.find? (fun e => e.name == argument))
    | some eid => ctx.getEmoji eid
  match result with
  | some e => .ok e
  | none => .error (.emojiNotFound argument)

/-- The guild used by the C1 counterexample: it owns the emoji with id
`100000000000000` under the name `"party"`. -/
def c1Guild : GuildE := ⟨[⟨100000000000000, "party"⟩]⟩

/-- The context of the C1 counterexample: the local guild holds the emoji,
the global by-id cache does not. -/
def c1Ctx : EmojiCtx := ⟨some c1Guild, [⟨100000000000000, "party"⟩], fun _ => none⟩

/-- C1 counterexample: a token that matches the 15-20 digit ID pattern, in
a context whose local scope (the guild's emoji collection) holds the
parsed identifier, is not resolved to that local entity by
`EmojiConverter.convert` — the converter consults only the global by-id
cache in the ID branch and raises `EmojiNotFound`, so "resolves by the
parsed identifier (local scope if present, else global scope)" fails as
stated. -/
theorem c1_id_precedence_counterexample :
    idMatch "100000000000000" = some 100000000000000 ∧
    c1Ctx.guild = some c1Guild ∧
    (⟨100000000000000, "party"⟩ : Emoji) ∈ c1Guild.emojis ∧
    emojiConvert c1Ctx "100000000000000" =
      .error (.emojiNotFound "100000000000000") := by
  refine ⟨by decide, rfl, by decide, rfl⟩

/-- C1 (amended): for every token matching the 15-20 digit ID pattern, both
converters resolve by the parsed identifier and never fall through to the
exact-name lookup stage: the member converter uses the local guild member
cache plus message mentions when a guild is present (with a by-id gateway
fetch as cache-miss fallback) and the global guild list otherwise, while
the emoji converter uses the global by-id emoji cache only; the right-hand
sides below mention no name-lookup accessor, so the result is independent
of every name-lookup hook. -/
theorem c1_id_resolution (arg : String) (uid : Nat)
    (h : idMatch arg = some uid) :
    (∀ ctx : MemberCtx, memberConvert ctx arg =
      match ctx.guild with
      | some g =>
        (match firstSome (g.getMember uid)
            (ctx.mentions.find? (fun mem => mem.id == uid)) with
         | some mem => .ok mem
         | none =>
           match ctx.queryById uid with
           | some mem => .ok mem
           | none => .error (.memberNotFound arg))
      | none =>
        (match getFromGuildsById ctx.botGuilds uid with
         | some mem => .ok mem
         | none => .error (.memberNotFound arg))) ∧
    (∀ ctx : EmojiCtx, emojiConvert ctx arg =
      match ctx.getEmoji uid with
      | some e => .ok e
      | none => .error (.emojiNotFound arg)) := by
  constructor
  · intro ctx
    cases hg : ctx.guild with
    | none => simp only [memberConvert, h, firstSome, hg]
    | some g => simp only [memberConvert, h, firstSome, hg]
  · intro ctx
    simp only [emojiConvert, h, firstSome]

/-- Witness for C1 at a concrete 15-digit token and concrete contexts. -/
theorem c1_id_resolution_witness :
    memberConvert
      ⟨some ⟨fun u => if u = 100000000000000 then some ⟨100000000000000, "ann"⟩ else none,
             fun _ => some ⟨5, "wrong"⟩⟩, [], [], fun _ => none, fun _ => none⟩
      "100000000000000" = .ok ⟨100000000000000, "ann"⟩ ∧
    emojiConvert c1Ctx "100000000000000" =
      .error (.emojiNotFound "100000000000000") := by
  have h := c1_id_resolution "100000000000000" 100000000000000 (by decide)
  constructor
  · exact (h.1 _).trans (by rfl)
  · exact (h.2 c1Ctx).trans (by rfl)

/-! ## Union resolution (`run_converters`, converter.py:1583-1631) -/

/-- The token cursor (`StringView`): `undo` restores the index saved before
the last token read (`self.index = self.previous`). -/
structure StringView where
  index : Nat
  previous : Nat
deriving DecidableEq, Repr

/-- Embedding of `StringView.undo`. -/
def StringView.undo (v : StringView) : StringView := ⟨v.previous, v.previous⟩

/-- The parameter facts `run_converters` reads: `param.required`,
`param.kind == VAR_POSITIONAL`, and the value `param.get_default(ctx)`
produces (modelled as a pure value). -/
structure ParamInfo (α : Type) where
  required : Bool
  varPositional : Bool
  default : α

/-- One constituent of a `Union` annotation: either `NoneType` (the
`Optional` absence alternative) or an actual converter, modelled by the
conversion it performs on the token. -/
inductive UnionAlt (α : Type) where
  | noneType
  | conv (f : String → Except CommandError α)

/-- Outcome of the Union branch of `run_converters`: a successful
constituent conversion, the `NoneType` early return (`None` when the
parameter is required, its default otherwise), or `BadUnionArgument`
carrying the per-alternative errors in attempt order. -/
inductive UnionOutcome (α : Type) where
  | value (v : α)
  | absence (v : Option α)
  | failed (errors : List CommandError)

/-- Embedding of the `origin is Union` loop of `run_converters`
(converter.py:1615-1631): constituents are attempted in declared order; a
`NoneType` constituent with a non-variadic parameter undoes the last token
read and returns the absence value at once; a converter success returns
immediately; converter errors accumulate and, if no constituent succeeds,
produce the compound failure. A `NoneType` constituent of a variadic
parameter falls through to `_actual_conversion`, where calling `NoneType`
on the token raises and is wrapped into `BadArgument`. -/
def runUnion {α : Type} (arg : String) (param : ParamInfo α)
    (view : StringView) :
    List (UnionAlt α) → List CommandError → UnionOutcome α × StringView
  | [], errs => (.failed errs, view)
  | .noneType :: rest, errs =>
    if param.varPositional then
      runUnion arg param view rest (errs ++ [.badArgument "NoneType"])
    else
      (.absence (if param.required then none else some param.default),
        view.undo)
  | .conv f :: rest, errs =>
    match f arg with
    | .ok v => (.value v, view)
    | .error e => runUnion arg param view rest (errs ++ [e])

/-- Every alternative of `pre` is a converter that fails on `arg`. -/
def allFailOn {α : Type} (pre : List (UnionAlt α)) (arg : String) : Prop :=
  ∀ a ∈ pre, ∃ f e, a = UnionAlt.conv f ∧ f arg = Except.error e

/-- Helper: failing converters before the absence alternative are skipped,
and reaching `NoneType` with a non-variadic parameter returns the absence
value with the view undone, for any accumulated error list. -/
theorem runUnion_absence {α : Type} (arg : String) (param : ParamInfo α)
    (view : StringView) (hvp : param.varPositional = false) :
    ∀ (pre post : List (UnionAlt α)) (errs : List CommandError),
      allFailOn pre arg →
      runUnion arg param view (pre ++ .noneType :: post) errs =
        (.absence (if param.required then none else some param.default),
          view.undo) := by
  intro pre
  induction pre with
  | nil =>
    intro post errs _
    simp only [List.nil_append, runUnion, hvp, Bool.false_eq_true, if_false]
  | cons a rest ih =>
    intro post errs hfail
    obtain ⟨f, e, ha, hfe⟩ := hfail a (List.mem_cons_self a rest)
    subst ha
    have hrest : allFailOn rest arg := fun b hb =>
      hfail b (List.mem_cons_of_mem _ hb)
    simp only [List.cons_append, runUnion, hfe]
    exact ih post (errs ++ [e]) hrest

/-- Helper: with failing converters before it, a succeeding converter
returns its value immediately, leaving the view untouched, for any
accumulated error list. -/
theorem runUnion_firstSuccess {α : Type} (arg : String) (param : ParamInfo α)
    (view : StringView) :
    ∀ (pre post : List (UnionAlt α)) (f : String → Except CommandError α)
      (v : α) (errs : List CommandError),
      allFailOn pre arg → f arg = .ok v →
      runUnion arg param view (pre ++ .conv f :: post) errs =
        (.value v, view) := by
  intro pre
  induction pre with
  | nil =>
    intro post f v errs _ hok
    simp only [List.nil_append, runUnion, hok]
  | cons a rest ih =>
    intro post f v errs hfail hok
    obtain ⟨g, e, ha, hge⟩ := hfail a (List.mem_cons_self a rest)
    subst ha
    have hrest : allFailOn rest arg := fun b hb =>
      hfail b (List.mem_cons_of_mem _ hb)
    simp only [List.cons_append, runUnion, hge]
    exact ih post f v (errs ++ [e]) hrest hok

/-- Helper: when every constituent is a converter that fails, the result is
the compound failure carrying the errors in attempt order (appended to the
accumulated prefix). -/
theorem runUnion_allFail {α : Type} (arg : String) (param : ParamInfo α)
    (view : StringView) :
    ∀ (fs : List ((String → Except CommandError α) × CommandError))
      (errs : List CommandError),
      (∀ p ∈ fs, p.1 arg = Except.error p.2) →
      runUnion arg param view (fs.map (fun p => UnionAlt.conv p.1)) errs =
        (.failed (errs ++ fs.map (fun p => p.2)), view) := by
  intro fs
  induction fs with
  | nil => intro errs _; simp [runUnion]
  | cons p rest ih =>
    intro errs hfail
    have hp := hfail p (List.mem_cons_self p rest)
    have hrest : ∀ q ∈ rest, q.1 arg = Except.error q.2 := fun q hq =>
      hfail q (List.mem_cons_of_mem _ hq)
    simp only [List.map_cons, runUnion, hp]
    rw [ih (errs ++ [p.2]) hrest]
    simp

/-- C4: for every Union containing the absence alternative (`NoneType`),
when resolution reaches that constituent (every earlier constituent is a
converter that failed) and the parameter is not variadic, the resolver
undoes the last token consumption and returns without error — the default
for a non-required parameter, absence for a required one — attempting no
further alternatives (the result does not depend on `post`), regardless of
the token's content. -/
theorem c4_union_absence {α : Type} (arg : String) (param : ParamInfo α)
    (view : StringView) (pre post : List (UnionAlt α))
    (hvp : param.varPositional = false) (hfail : allFailOn pre arg) :
    runUnion arg param view (pre ++ .noneType :: post) [] =
      (.absence (if param.required then none else some param.default),
        view.undo) :=
  runUnion_absence arg param view hvp pre post [] hfail

/-- Witness for C4: `Optional[int]`-style union on the unconvertible token
`"x"` with a non-required parameter returns the default `7` and undoes the
view. -/
theorem c4_union_absence_witness :
    runUnion "x" ⟨false, false, (7 : Nat)⟩ ⟨3, 2⟩
      ([UnionAlt.conv fun _ => .error (.badArgument "int")] ++
        .noneType :: []) [] =
      (.absence (some 7), ⟨2, 2⟩) := by
  have h := c4_union_absence "x" ⟨false, false, (7 : Nat)⟩ ⟨3, 2⟩
    [UnionAlt.conv fun _ => .error (.badArgument "int")] [] rfl
    (by
      intro a ha
      simp only [List.mem_singleton] at ha
      exact ⟨_, .badArgument "int", ha, rfl⟩)
  simpa [StringView.undo] using h

/-- C5: Union constituents are attempted in declared order: the first
successful conversion is returned immediately (later constituents are not
attempted — the result does not depend on `post`), and when every
constituent fails the resolver produces the compound union failure carrying
the per-alternative errors in attempt order. -/
theorem c5_union_order {α : Type} (arg : String) (param : ParamInfo α)
    (view : StringView) :
    (∀ (pre post : List (UnionAlt α)) (f : String → Except CommandError α)
        (v : α), allFailOn pre arg → f arg = .ok v →
      runUnion arg param view (pre ++ .conv f :: post) [] =
        (.value v, view)) ∧
    (∀ fs : List ((String → Except CommandError α) × CommandError),
      (∀ p ∈ fs, p.1 arg = Except.error p.2) →
      runUnion arg param view (fs.map (fun p => UnionAlt.conv p.1)) [] =
        (.failed (fs.map (fun p => p.2)), view)) := by
  constructor
  · intro pre post f v hfail hok
    exact runUnion_firstSuccess arg param view pre post f v [] hfail hok
  · intro fs hfail
    have h := runUnion_allFail arg param view fs [] hfail
    simpa using h

/-- Witness for C5: the second constituent succeeds after the first fails,
and a two-converter union where both fail aggregates both errors in
order. -/
theorem c5_union_order_witness :
    runUnion "5" ⟨true, false, (0 : Nat)⟩ ⟨1, 0⟩
      ([UnionAlt.conv fun _ => .error (.badArgument "member")] ++
        .conv (fun _ => .ok 5) :: []) [] = (.value 5, ⟨1, 0⟩) ∧
    runUnion "z" ⟨true, false, (0 : Nat)⟩ ⟨1, 0⟩
      ([((fun _ => .error (.badArgument "a")), CommandError.badArgument "a"),
        ((fun _ => .error (.badArgument "b")), CommandError.badArgument "b")].map
          (fun p => UnionAlt.conv p.1)) [] =
      (.failed [.badArgument "a", .badArgument "b"], ⟨1, 0⟩) := by
  constructor
  · exact (c5_union_order "5" ⟨true, false, (0 : Nat)⟩ ⟨1, 0⟩).1
      [UnionAlt.conv fun _ => .error (.badArgument "member")] []
      (fun _ => .ok 5) 5
      (by
        intro a ha
        simp only [List.mem_singleton] at ha
        exact ⟨_, .badArgument "member", ha, rfl⟩)
      rfl
  · exact (c5_union_order "z" ⟨true, false, (0 : Nat)⟩ ⟨1, 0⟩).2 _
      (by
        intro p hp
        simp only [List.mem_cons, List.not_mem_nil, or_false] at hp
        rcases hp with h | h <;> subst h <;> rfl)

/-! ## Range conversion (`Range.convert`, converter.py:1424-1438) -/

/-- The admissible `Range` annotations (`int`, `float`, `str`). -/
inductive RangeType where
  | rint
  | rfloat
  | rstr
deriving DecidableEq, Repr

/-- A `Range` instance: the base annotation and the configured bounds. -/
structure RangeSpec where
  rtype : RangeType
  minB : Option ℚ
  maxB : Option ℚ
deriving DecidableEq, Repr

/-- Model of Python `int(value)` on a command token: an optional sign
followed by decimal digits. -/
def pyInt (s : String) : Option Int :=
  match s.data with
  | '-' :: rest => (decDigits? rest).map (fun n => -(n : Int))
  | '+' :: rest => (decDigits? rest).map (fun n => (n : Int))
  | l => (decDigits? l).map (fun n => (n : Int))

/-- Model of Python `float(value)` on a decimal command token: an optional
sign, digits, an optional point and fraction digits (value taken in `ℚ`). -/
def pyFloatCore (l : List Char) : Option ℚ :=
  let ip := l.takeWhile Char.isDigit
  let rest := l.dropWhile Char.isDigit
  match rest with
  | [] => if ip = [] then none else some (digitsToNat ip : ℚ)
  | '.' :: frac =>
    if frac.all Char.isDigit ∧ (ip ≠ [] ∨ frac ≠ []) then
      some ((digitsToNat ip : ℚ) +
        (digitsToNat frac : ℚ) / ((10 : ℚ) ^ frac.length))
    else none
  | _ => none

/-- Signed Python `float(value)` model. -/
def pyFloat (s : String) : Option ℚ :=
  match s.data with
  | '-' :: rest => (pyFloatCore rest).map (fun q => -q)
  | '+' :: rest => pyFloatCore rest
  | l => pyFloatCore l

/-- The base conversion `self.annotation(value)` of `Range.convert`:
`int`/`float` parse the token (a `ValueError` is the `none` case), `str`
returns the token unchanged. -/
def rangeParse (t : RangeType) (value : String) : Option RangeVal :=
  match t with
  | .rint => (pyInt value).map (fun n => RangeVal.num (n : ℚ))
  | .rfloat => (pyFloat value).map RangeVal.num
  | .rstr => some (.text value)

/-- The quantity compared against the bounds: the converted number for
numeric annotations, `len(value)` for the `str` annotation. -/
def rangeCount (t : RangeType) (value : String) (conv : RangeVal) : ℚ :=
  match t with
  | .rstr => (value.length : ℚ)
  | _ =>
    match conv with
    | .num q => q
    | .text _ => 0

/-- The bounds test of `Range.convert`:
`(min is not None and count < min) or (max is not None and count > max)`. -/
def rangeViolation (r : RangeSpec) (count : ℚ) : Bool :=
  (match r.minB with
   | some m => decide (count < m)
   | none => false) ||
  (match r.maxB with
   | some m => decide (count > m)
   | none => false)

/-- Embedding of `Range.convert` (converter.py:1424-1438): run the base
conversion first (`ValueError` becomes `BadArgument` carrying the parameter
name), compare the count against the configured bounds, and raise
`RangeError` carrying the converted value and both bounds on a violation. -/
def range_convert (r : RangeSpec) (value : String) (paramName : String) :
    Except CommandError RangeVal :=
  match rangeParse r.rtype value with
  | none => .error (.badArgument paramName)
  | some conv =>
    if rangeViolation r (rangeCount r.rtype value conv) then
      .error (.rangeError conv r.minB r.maxB)
    else .ok conv

/-- C8: the base conversion runs first — a parse failure raises
`BadArgument`, distinct from `RangeError`; a bounds violation raises
`RangeError` carrying the converted value and the configured bounds, where
numeric annotations compare the converted number and the string annotation
compares the token's length; a non-violating conversion succeeds; bounds
`[1,10]` with token `"15"` raise `RangeError` with value 15, min 1, max 10,
while token `"7"` succeeds with value 7. -/
theorem c8_range_bounds (r : RangeSpec) (value pname : String) :
    (rangeParse r.rtype value = none →
      range_convert r value pname = .error (.badArgument pname)) ∧
    (∀ q : ℚ, rangeParse r.rtype value = some (.num q) →
      ((∃ m, r.minB = some m ∧ q < m) ∨ (∃ m, r.maxB = some m ∧ q > m)) →
      range_convert r value pname =
        .error (.rangeError (.num q) r.minB r.maxB)) ∧
    (∀ s, rangeParse r.rtype value = some (.text s) →
      ((∃ m, r.minB = some m ∧ (value.length : ℚ) < m) ∨
       (∃ m, r.maxB = some m ∧ (value.length : ℚ) > m)) →
      range_convert r value pname =
        .error (.rangeError (.text s) r.minB r.maxB)) ∧
    (∀ conv, rangeParse r.rtype value = some conv →
      rangeViolation r (rangeCount r.rtype value conv) = false →
      range_convert r value pname = .ok conv) ∧
    range_convert ⟨.rint, some 1, some 10⟩ "15" pname =
      .error (.rangeError (.num 15) (some 1) (some 10)) ∧
    range_convert ⟨.rint, some 1, some 10⟩ "7" pname = .ok (.num 7) := by
  refine ⟨fun h => ?_, fun q hq hviol => ?_, fun s hs hviol => ?_,
    fun conv hc hv => ?_, ?_, ?_⟩
  · simp [range_convert, h]
  · have ht : r.rtype ≠ .rstr := by
      intro h
      rw [h] at hq
      simp [rangeParse] at hq
    have hcount : rangeCount r.rtype value (.num q) = q := by
      cases htt : r.rtype with
      | rint => rfl
      | rfloat => rfl
      | rstr => exact absurd htt ht
    have hv : rangeViolation r q = true := by
      rcases hviol with ⟨m, hm, hlt⟩ | ⟨m, hm, hgt⟩
      · simp [rangeViolation, hm, hlt]
      · simp [rangeViolation, hm, hgt]
    simp [range_convert, hq, hcount, hv]
  · have ht : r.rtype = .rstr := by
      cases htt : r.rtype with
      | rint =>
        rw [htt] at hs
        cases hpi : pyInt value <;> simp [rangeParse, hpi] at hs
      | rfloat =>
        rw [htt] at hs
        cases hpf : pyFloat value <;> simp [rangeParse, hpf] at hs
      | rstr => rfl
    have hcount : rangeCount r.rtype value (.text s) = (value.length : ℚ) := by
      rw [ht]
      rfl
    have hv : rangeViolation r (value.length : ℚ) = true := by
      rcases hviol with ⟨m, hm, hlt⟩ | ⟨m, hm, hgt⟩
      · simp [rangeViolation, hm, hlt]
      · simp [rangeViolation, hm, hgt]
    simp [range_convert, hs, hcount, hv]
  · simp [range_convert, hc, hv]
  · rfl
  · rfl

/-- Witness for C8: a non-numeric token under the `int` annotation raises
`BadArgument`, and a too-short token under a `str` annotation with minimum
length 2 raises `RangeError` on the token's length. -/
theorem c8_range_bounds_witness :
    range_convert ⟨.rint, some 1, some 10⟩ "abc" "p" =
      .error (.badArgument "p") ∧
    range_convert ⟨.rstr, some 2, none⟩ "a" "p" =
      .error (.rangeError (.text "a") (some 2) none) := by
  constructor
  · exact (c8_range_bounds ⟨.rint, some 1, some 10⟩ "abc" "p").1 (by rfl)
  · exact (c8_range_bounds ⟨.rstr, some 2, none⟩ "a" "p").2.2.1 "a" (by rfl)
      (Or.inl ⟨2, rfl, by norm_num [show "a".length = 1 from rfl]⟩)

/-! ## Duration conversion (`TimeDeltaConverter.convert`, converter.py:902-940) -/

/-- The `base_units` table: `{'ms': 0.001, 's': 1, 'm': 60, 'h': 3600,
'd': 86400, 'w': 604800, 'y': 31536000}`, in insertion order. -/
def base_units : List (String × ℚ) :=
  [("ms", 1 / 1000), ("s", 1), ("m", 60), ("h", 3600), ("d", 86400),
   ("w", 604800), ("y", 31536000)]

/-- The suffixes appended to every base unit by the `time_units` dict
comprehension, in generation order. -/
def unitSuffixes : List String :=
  ["", "s", "ec", "ecs", "in", "ins", "inute", "inutes", "our", "ours",
   "ay", "ays", "eek", "eeks", "ear", "ears", "illisecond", "illiseconds"]

/-- The `time_units` key/value pairs in generation order (duplicated keys
kept; a later pair shadows an earlier one, as in a Python dict). -/
def time_units_pairs : List (String × ℚ) :=
  base_units.flatMap (fun p => unitSuffixes.map (fun suf => (p.1 ++ suf, p.2)))

/-- Dict lookup in `time_units`: the value of the LAST generated pair with
the given key (later comprehension entries overwrite earlier ones). -/
def lookupUnit (k : String) : Option ℚ :=
  (time_units_pairs.reverse.find? (fun p => p.1 == k)).map (fun p => p.2)

/-- `float(value)` on a `(\d+\.?\d*)` capture: integer digits, plus the
fraction when the optional dot was present. -/
def numValue (ip : List Char) (hasDot : Bool) (fp : List Char) : ℚ :=
  (digitsToNat ip : ℚ) +
    (if hasDot then (digitsToNat fp : ℚ) / ((10 : ℚ) ^ fp.length) else 0)

/-- Embedding of `re.findall(r'(\d+\.?\d*)\s*([a-zA-Z]+)', argument)`: scan
left to right; at a digit, read the greedy number (digits, optional dot,
digits), skip whitespace, and read the greedy letter run; an empty letter
run fails the match and the scan resumes one character after the match
start, exactly as the regex engine retries. The fuel argument (instantiated
with the input length, which every recursive call respects) makes the
recursion structural. -/
def scanFuel : Nat → List Char → List (ℚ × String)
  | 0, _ => []
  | _, [] => []
  | fuel + 1, c :: rest =>
    if c.isDigit then
      let r1 := rest.dropWhile Char.isDigit
      let hasDot : Bool := match r1 with | '.' :: _ => true | _ => false
      let fp := if hasDot then r1.tail.takeWhile Char.isDigit else []
      let r3 := (if hasDot then r1.tail.dropWhile Char.isDigit
                 else r1).dropWhile Char.isWhitespace
      let unitC := r3.takeWhile Char.isAlpha
      if unitC.isEmpty then scanFuel fuel rest
      else (numValue (c :: rest.takeWhile Char.isDigit) hasDot fp,
            String.mk unitC) :: scanFuel fuel (r3.dropWhile Char.isAlpha)
    else scanFuel fuel rest

/-- The match list of the findall scan over the argument. -/
def scanMatches (l : List Char) : List (ℚ × String) := scanFuel l.length l

/-- Embedding of `TimeDeltaConverter.convert` (converter.py:902-940): no
match at all raises `BadArgument`; otherwise the total is the sum of
`value * time_units[unit]` over the matches whose unit is a `time_units`
key, and a zero total raises `BadArgument` as well. -/
def timeDeltaConvert (argument : String) : Except CommandError ℚ :=
  let ms := scanMatches argument.data
  if ms.isEmpty then .error (.badArgument argument)
  else
    let time : ℚ :=
      (ms.filterMap (fun p => (lookupUnit p.2).map (fun u => p.1 * u))).sum
    if time = 0 then .error (.badArgument argument)
    else .ok time

/-- C3: evaluation of the duration converter on millisecond aliases. The
dict comprehension generates `'ms'` first from base unit `'ms'` (0.001) and
again from `'m' + 's'` (60), and `'millisecond(s)'` only from
`'m' + 'illisecond(s)'` (60); the later minute-valued pairs win the dict
lookup, so `'10ms'` and `'10 milliseconds'` both convert to 600 seconds,
not the `10 * 0.001` seconds the claim (and the converter's docstring)
prescribe. -/
theorem c3_milliseconds_alias_bug :
    lookupUnit "ms" = some 60 ∧
    lookupUnit "milliseconds" = some 60 ∧
    timeDeltaConvert "10ms" = .ok 600 ∧
    timeDeltaConvert "10 milliseconds" = .ok 600 ∧
    (600 : ℚ) ≠ 10 * (1 / 1000) := by
  have hnv : numValue ['1', '0'] false [] = 10 := by
    have hd : digitsToNat ['1', '0'] = 10 := rfl
    simp [numValue, hd]
  have hscan1 : scanMatches "10ms".data =
      [(numValue ['1', '0'] false [], "ms")] := rfl
  have hscan2 : scanMatches "10 milliseconds".data =
      [(numValue ['1', '0'] false [], "milliseconds")] := rfl
  refine ⟨rfl, rfl, ?_, ?_, by norm_num⟩
  · simp [timeDeltaConvert, hscan1, hnv, show lookupUnit "ms" = some 60 from rfl]
    norm_num
  · simp [timeDeltaConvert, hscan2, hnv,
      show lookupUnit "milliseconds" = some 60 from rfl]
    norm_num

/-! ## Levenshtein distance (`RoleConverter.levenshtein_distance`,
converter.py:731-758) -/

/-- The substitution cost `(c1 != c2)` of the DP recurrence. -/
def levCost (c1 c2 : Char) : Nat := if c1 = c2 then 0 else 1

/-- The inner loop of the DP: given the processed character `c1`, the
remaining characters of `s2`, the suffix of `previous_row` starting at the
current column, and the last value appended to `current_row`, produce the
rest of `current_row`. Mirrors converter.py:751-755. -/
def levRowAux (c1 : Char) : List Char → List Nat → Nat → List Nat
  | [], _, _ => []
  | c2 :: s2, prev, cur =>
    match prev with
    | [] => []
    | pj :: prevRest =>
      let pj1 := prevRest.headD 0
      let v := min (pj1 + 1) (min (cur + 1) (pj + levCost c1 c2))
      v :: levRowAux c1 s2 prevRest v

/-- The outer loop of the DP: fold each character of `s1` into a fresh row
(seeded with `i + 1`), returning the final `previous_row`. Mirrors
converter.py:749-756. -/
def levRows (s2 : List Char) : List Char → List Nat → Nat → List Nat
  | [], prev, _ => prev
  | c1 :: s1, prev, i =>
    levRows s2 s1 ((i + 1) :: levRowAux c1 s2 prev (i + 1)) (i + 1)

/-- The body of `levenshtein_distance` after the length swap: empty `s2`
short-circuits to `len(s1)`; otherwise run the DP from the seed row
`range(len(s2) + 1)` and read `previous_row[-1]`. -/
def levCore (s1 s2 : List Char) : Nat :=
  if s2.isEmpty then s1.length
  else (levRows s2 s1 (List.range (s2.length + 1)) 0).getLastD 0

/-- Embedding of `RoleConverter.levenshtein_distance` (converter.py:731-758)
on the underlying character lists: the self-call swap guarantees the first
argument is at least as long as the second. -/
def levList (s1 s2 : List Char) : Nat :=
  if s1.length < s2.length then levCore s2 s1 else levCore s1 s2

/-- `RoleConverter.levenshtein_distance` on strings. -/
def levenshtein_distance (s1 s2 : String) : Nat := levList s1.data s2.data

/-- The classic textbook Levenshtein recurrence, used as the specification
the DP rows are proved against. -/
def levC : List Char → List Char → Nat
  | [], ys => ys.length
  | x :: xs, [] => (x :: xs).length
  | x :: xs, y :: ys =>
    min (levC xs (y :: ys) + 1)
      (min (levC (x :: xs) ys + 1) (levC xs ys + levCost x y))

/-- The cost function is symmetric. -/
theorem levCost_comm (x y : Char) : levCost x y = levCost y x := by
  unfold levCost
  by_cases h : x = y
  · simp [h]
  · rw [if_neg h, if_neg (fun hyx => h hyx.symm)]

/-- `levC` against the empty list is the length. -/
theorem levC_nil_right (xs : List Char) : levC xs [] = xs.length := by
  cases xs <;> simp [levC]

/-- The classic recurrence is symmetric. -/
theorem levC_comm (xs ys : List Char) : levC xs ys = levC ys xs := by
  induction xs, ys using levC.induct with
  | case1 ys => rw [levC, levC_nil_right]
  | case2 x xs => rw [levC_nil_right, levC]
  | case3 x xs y ys ih1 ih2 ih3 =>
    rw [levC, levC]
    rw [ih1, ih2, ih3, levCost_comm]
    omega

/-- The classic recurrence vanishes on the diagonal. -/
theorem levC_self (xs : List Char) : levC xs xs = 0 := by
  induction xs with
  | nil => simp [levC]
  | cons x l ih =>
    rw [levC]
    have hc : levCost x x = 0 := by simp [levCost]
    omega

/-- The classic recurrence is bounded by the longer length. -/
theorem levC_le_max (xs ys : List Char) : levC xs ys ≤ max xs.length ys.length := by
  induction xs, ys using levC.induct with
  | case1 ys => simp [levC]
  | case2 x xs => rw [levC_nil_right]; simp
  | case3 x xs y ys ih1 ih2 ih3 =>
    rw [levC]
    have hc : levCost x y ≤ 1 := by unfold levCost; split <;> omega
    simp only [List.length_cons] at *
    omega

/-- The classic recurrence read along prefixes: `levP xs ys` is the
Levenshtein distance computed by peeling the LAST characters. The forward
DP extends processed prefixes on the right, so its rows are characterised
by `levP`. -/
def levP (xs ys : List Char) : Nat := levC xs.reverse ys.reverse

/-- `levP` against the empty list is the length. -/
theorem levP_nil_right (xs : List Char) : levP xs [] = xs.length := by
  unfold levP
  rw [List.reverse_nil, levC_nil_right, List.length_reverse]

/-- `levP` is symmetric. -/
theorem levP_comm (xs ys : List Char) : levP xs ys = levP ys xs := by
  unfold levP
  exact levC_comm _ _

/-- `levP` vanishes on the diagonal. -/
theorem levP_self (xs : List Char) : levP xs xs = 0 := by
  unfold levP
  exact levC_self _

/-- `levP` is bounded by the longer length. -/
theorem levP_le_max (xs ys : List Char) :
    levP xs ys ≤ max xs.length ys.length := by
  have h := levC_le_max xs.reverse ys.reverse
  simpa [levP, List.length_reverse] using h

/-- The snoc-snoc recurrence: extending both prefixes by one character is
exactly the head step of `levC` on the reversals. -/
theorem levP_snoc (x y : Char) (xs ys : List Char) :
    levP (xs ++ [x]) (ys ++ [y]) =
      min (levP xs (ys ++ [y]) + 1)
        (min (levP (xs ++ [x]) ys + 1) (levP xs ys + levCost x y)) := by
  unfold levP
  simp only [List.reverse_append, List.reverse_cons, List.reverse_nil,
    List.nil_append, List.singleton_append]
  rw [levC.eq_3]

/-- The row of distances between `u` and the successive prefixes of
`pre ++ rest` extending `pre`: the shape both `previous_row` and
`current_row` take during the DP. -/
def rowFor (u : List Char) : List Char → List Char → List Nat
  | pre, [] => [levP u pre]
  | pre, c :: rest => levP u pre :: rowFor u (pre ++ [c]) rest

/-- The head of a `rowFor` is the distance to `pre` itself. -/
theorem rowFor_headD (u pre rest : List Char) (d : Nat) :
    (rowFor u pre rest).headD d = levP u pre := by
  cases rest <;> rfl

/-- A `rowFor` is its head consed onto its tail. -/
theorem rowFor_cons_tail (u pre rest : List Char) :
    rowFor u pre rest = levP u pre :: (rowFor u pre rest).tail := by
  cases rest <;> rfl

/-- The last entry of a `rowFor` is the distance to the full string. -/
theorem rowFor_getLastD (u : List Char) :
    ∀ (rest pre : List Char) (d : Nat),
      (rowFor u pre rest).getLastD d = levP u (pre ++ rest) := by
  intro rest
  induction rest with
  | nil => intro pre d; simp [rowFor]
  | cons c r ih =>
    intro pre d
    rw [rowFor, List.getLastD_cons, ih (pre ++ [c]) (levP u pre)]
    simp

/-- Row correctness of the inner DP loop: fed the row for `u` (relative to
`pre`) and the distance of the extended prefix `u ++ [c1]` to `pre`, it
produces the tail of the row for `u ++ [c1]`. -/
theorem levRowAux_spec (c1 : Char) (u : List Char) :
    ∀ (rest pre : List Char),
      levRowAux c1 rest (rowFor u pre rest) (levP (u ++ [c1]) pre) =
        (rowFor (u ++ [c1]) pre rest).tail := by
  intro rest
  induction rest with
  | nil => intro pre; rfl
  | cons c2 rest ih =>
    intro pre
    rw [rowFor, levRowAux, rowFor_headD]
    have hv : min (levP u (pre ++ [c2]) + 1)
        (min (levP (u ++ [c1]) pre + 1) (levP u pre + levCost c1 c2)) =
        levP (u ++ [c1]) (pre ++ [c2]) := (levP_snoc c1 c2 u pre).symm
    rw [hv, ih (pre ++ [c2])]
    rw [rowFor, List.tail_cons]
    exact (rowFor_cons_tail (u ++ [c1]) (pre ++ [c2]) rest).symm

/-- Row correctness of the outer DP loop: starting from the row for `u`, it
returns the row for `u ++ s1`. -/
theorem levRows_spec (s2 : List Char) :
    ∀ (s1 u : List Char),
      levRows s2 s1 (rowFor u [] s2) u.length = rowFor (u ++ s1) [] s2 := by
  intro s1
  induction s1 with
  | nil => intro u; simp [levRows]
  | cons c1 rest ih =>
    intro u
    rw [levRows]
    have hlen : u.length + 1 = levP (u ++ [c1]) [] := by
      rw [levP_nil_right]
      simp
    have hrow : (u.length + 1) ::
        levRowAux c1 s2 (rowFor u [] s2) (u.length + 1) =
        rowFor (u ++ [c1]) [] s2 := by
      rw [hlen, levRowAux_spec c1 u s2 []]
      exact (rowFor_cons_tail (u ++ [c1]) [] s2).symm
    rw [hrow]
    have h2 := ih (u ++ [c1])
    simp only [List.length_append, List.length_cons, List.length_nil,
      Nat.zero_add, List.append_assoc, List.singleton_append] at h2
    exact h2

/-- `levP` with an empty first string is the length of the second. -/
theorem levP_nil_left (ys : List Char) : levP [] ys = ys.length := by
  rw [levP_comm, levP_nil_right]

/-- The seed row `range(len(s2) + 1)` is the row for the empty prefix. -/
theorem rowFor_nil (rest : List Char) :
    ∀ pre, rowFor [] pre rest = List.range' pre.length (rest.length + 1) := by
  induction rest with
  | nil => intro pre; simp [rowFor, levP_nil_left, List.range']
  | cons c r ih =>
    intro pre
    rw [rowFor, levP_nil_left, List.length_cons, List.range']
    rw [ih (pre ++ [c])]
    simp

/-- The DP body computes the prefix-oriented classic distance. -/
theorem levCore_eq (s1 s2 : List Char) : levCore s1 s2 = levP s1 s2 := by
  unfold levCore
  cases hs2 : s2 with
  | nil => simp [levP_nil_right]
  | cons c rest =>
    simp only [List.isEmpty_cons, if_false, Bool.false_eq_true]
    have hinit : List.range ((c :: rest).length + 1) = rowFor [] [] (c :: rest) := by
      rw [rowFor_nil (c :: rest) [], List.range_eq_range']
      simp
    rw [hinit]
    have h0 : (0 : Nat) = ([] : List Char).length := rfl
    rw [h0, levRows_spec (c :: rest) s1 [], List.nil_append]
    rw [rowFor_getLastD s1 (c :: rest) []]
    simp

/-- The embedded `levenshtein_distance` equals the classic distance: the
initial swap only exchanges the arguments, which `levP_comm` absorbs. -/
theorem levList_eq (s1 s2 : List Char) : levList s1 s2 = levP s1 s2 := by
  unfold levList
  split
  · rw [levCore_eq, levP_comm]
  · rw [levCore_eq]

/-- C6: the edit-distance function of the fuzzy matcher is symmetric, and
the distance of every string to itself is zero. -/
theorem c6_levenshtein_sym_refl :
    (∀ a b : String, levenshtein_distance a b = levenshtein_distance b a) ∧
    (∀ a : String, levenshtein_distance a a = 0) := by
  constructor
  · intro a b
    unfold levenshtein_distance
    rw [levList_eq, levList_eq, levP_comm]
  · intro a
    unfold levenshtein_distance
    rw [levList_eq, levP_self]

/-! ## Fuzzy matcher (`RoleConverter.fuzzy_search`, converter.py:760-831) -/

/-- Embedding of `RoleConverter.normalized_levenshtein` (converter.py:
760-773): the distance divided by the longer length, computed in `ℚ`.
(When both strings are empty Python would divide by zero; in `ℚ` the result
is 0. The caller only reaches this with at least one non-empty string,
because two empty strings satisfy the earlier exact-equality return.) -/
def normalized_levenshtein (s1 s2 : String) : ℚ :=
  (levenshtein_distance s1 s2 : ℚ) / (max s1.length s2.length : ℚ)

/-- `str.split()` semantics: maximal runs of non-whitespace characters. -/
def wordsAux : List Char → List Char → List (List Char)
  | [], acc => if acc = [] then [] else [acc.reverse]
  | c :: rest, acc =>
    if c.isWhitespace then
      if acc = [] then wordsAux rest [] else acc.reverse :: wordsAux rest []
    else wordsAux rest (c :: acc)

/-- The whitespace-split word list of a string. -/
def pyWords (s : String) : List (List Char) := wordsAux s.data []

/-- Embedding of `RoleConverter.word_match_score` (converter.py:775-788):
the size of the intersection of the lowercased word sets of query and
choice. -/
def word_match_score (query choice : String) : Nat :=
  ((pyWords (strLower query)).dedup.filter
    (fun w => w ∈ pyWords (strLower choice))).length

/-- Substring occurrence at any position of the haystack. -/
def strInStrAux (needle : List Char) : List Char → Bool
  | [] => needle.isEmpty
  | c :: rest => needle.isPrefixOf (c :: rest) || strInStrAux needle rest

/-- Python's substring test `needle in hay`. -/
def strInStr (needle hay : String) : Bool := strInStrAux needle.data hay.data

/-- A cached role (only the fields the fuzzy search reads). -/
structure Role where
  id : Nat
  name : String
deriving DecidableEq, Repr

/-- The mutable scan state of `fuzzy_search`: `best_match`, `best_score`
(initially -1) and `min_distance` (initially `float('inf')`, modelled as
`⊤` in `WithTop ℚ`). -/
structure FuzzyState where
  best : Option Role
  bestScore : Int
  minDist : WithTop ℚ

/-- The initial scan state of `fuzzy_search` (converter.py:805-807). -/
def initState : FuzzyState := ⟨none, -1, ⊤⟩

/-- One scoring iteration of the `fuzzy_search` loop (converter.py:820-826):
compute word score and normalized distance for the candidate, and take over
the tracked best on a strictly larger score or an equal score with a
strictly smaller distance. -/
def fuzzy_step (ql : String) (st : FuzzyState) (c : Role) : FuzzyState :=
  let cn := strLower c.name
  let score : Int := (word_match_score ql cn : Int)
  let dist : ℚ := normalized_levenshtein ql cn
  if score > st.bestScore ∨
      (score = st.bestScore ∧ (dist : WithTop ℚ) < st.minDist) then
    ⟨some c, score, (dist : WithTop ℚ)⟩
  else st

/-- The loop of `fuzzy_search` (converter.py:811-831): per candidate, an
exact lowercase match or a substring containment returns immediately;
otherwise the scoring state is updated; after the loop the tracked best is
returned only when `min_distance <= threshold`. -/
def fuzzy_aux (ql : String) (threshold : ℚ) :
    List Role → FuzzyState → Option Role
  | [], st =>
    match st.best with
    | none => none
    | some b => if st.minDist ≤ (threshold : WithTop ℚ) then some b else none
  | c :: cs, st =>
    let cn := strLower c.name
    if ql = cn then some c
    else if strInStr ql cn then some c
    else fuzzy_aux ql threshold cs (fuzzy_step ql st c)

/-- Embedding of `RoleConverter.fuzzy_search` (converter.py:790-831). -/
def fuzzy_search (query : String) (choices : List Role) (threshold : ℚ) :
    Option Role :=
  fuzzy_aux (strLower query) threshold choices initState

/-- The scoring-phase state after scanning all candidates (the tracked
best, score and distance of the loop when no early return fires). -/
def fuzzy_scan (ql : String) (choices : List Role) : FuzzyState :=
  choices.foldl (fuzzy_step ql) initState

/-- The normalized distance never exceeds 1. -/
theorem normalized_le_one (s1 s2 : String) :
    normalized_levenshtein s1 s2 ≤ 1 := by
  unfold normalized_levenshtein
  rw [← Nat.cast_max]
  rcases Nat.eq_zero_or_pos (max s1.length s2.length) with h | h
  · rw [h]
    simp
  · rw [div_le_one (by exact_mod_cast h)]
    have hb : levenshtein_distance s1 s2 ≤ max s1.length s2.length := by
      unfold levenshtein_distance
      rw [levList_eq]
      have h2 := levP_le_max s1.data s2.data
      have hl1 : s1.data.length = s1.length := rfl
      have hl2 : s2.data.length = s2.length := rfl
      rw [hl1, hl2] at h2
      exact h2
    exact_mod_cast hb

/-- Candidate `c` fires no early return against the lowered query. -/
def noEarly (ql : String) (c : Role) : Prop :=
  ql ≠ strLower c.name ∧ strInStr ql (strLower c.name) = false

/-- When no candidate fires an early return, the loop is the fold of the
scoring step followed by the final threshold check. -/
theorem fuzzy_aux_run (ql : String) (th : ℚ) :
    ∀ (cs : List Role) (st : FuzzyState), (∀ c ∈ cs, noEarly ql c) →
      fuzzy_aux ql th cs st =
        (match (cs.foldl (fuzzy_step ql) st).best with
         | none => none
         | some b =>
           if (cs.foldl (fuzzy_step ql) st).minDist ≤ (th : WithTop ℚ)
           then some b else none) := by
  intro cs
  induction cs with
  | nil => intro st _; rfl
  | cons c rest ih =>
    intro st hno
    obtain ⟨hne, hni⟩ := hno c (List.mem_cons_self c rest)
    rw [fuzzy_aux]
    simp only [if_neg hne, hni, Bool.false_eq_true, if_false]
    rw [ih (fuzzy_step ql st c)
      (fun r hr => hno r (List.mem_cons_of_mem c hr)), List.foldl_cons]

/-- The scan state always carries the distance of its tracked best:
`min_distance` is `⊤` exactly while `best_match` is `None`, and otherwise
the normalized distance of the tracked best candidate. -/
def linked (ql : String) (st : FuzzyState) : Prop :=
  (st.best = none → st.minDist = ⊤) ∧
  (∀ r, st.best = some r →
    st.minDist = ((normalized_levenshtein ql (strLower r.name) : ℚ) : WithTop ℚ))

/-- The scoring step preserves the linking invariant. -/
theorem fuzzy_step_linked (ql : String) (st : FuzzyState) (c : Role)
    (h : linked ql st) : linked ql (fuzzy_step ql st c) := by
  simp only [fuzzy_step]
  split
  · refine ⟨?_, ?_⟩
    · intro hb
      cases hb
    · intro r hr
      simp only at hr
      cases hr
      rfl
  · exact h

/-- The scoring step never clears the tracked best. -/
theorem fuzzy_step_some (ql : String) (st : FuzzyState) (c : Role) (r : Role)
    (h : st.best = some r) : ∃ r2, (fuzzy_step ql st c).best = some r2 := by
  simp only [fuzzy_step]
  split
  · exact ⟨c, rfl⟩
  · exact ⟨r, h⟩

/-- The first scored candidate always takes over the initial state: its
word score is a natural number, hence above the initial -1. -/
theorem fuzzy_step_init (ql : String) (c : Role) :
    (fuzzy_step ql initState c).best = some c := by
  have hgt : ((word_match_score ql (strLower c.name) : Nat) : Int) >
      initState.bestScore := by
    show _ > (-1 : Int)
    have := Int.natCast_nonneg (word_match_score ql (strLower c.name))
    omega
  simp only [fuzzy_step]
  rw [if_pos (Or.inl hgt)]

/-- Folding the scoring step preserves the linking invariant. -/
theorem fuzzy_fold_linked (ql : String) :
    ∀ (cs : List Role) (st : FuzzyState), linked ql st →
      linked ql (cs.foldl (fuzzy_step ql) st) := by
  intro cs
  induction cs with
  | nil => intro st h; exact h
  | cons c rest ih =>
    intro st h
    rw [List.foldl_cons]
    exact ih _ (fuzzy_step_linked ql st c h)

/-- Folding the scoring step keeps the tracked best occupied. -/
theorem fuzzy_fold_some (ql : String) :
    ∀ (cs : List Role) (st : FuzzyState) (r : Role), st.best = some r →
      ∃ r2, (cs.foldl (fuzzy_step ql) st).best = some r2 := by
  intro cs
  induction cs with
  | nil => intro st r h; exact ⟨r, h⟩
  | cons c rest ih =>
    intro st r h
    rw [List.foldl_cons]
    obtain ⟨r2, h2⟩ := fuzzy_step_some ql st c r h
    exact ih _ r2 h2

/-- The initial state is linked. -/
theorem initState_linked (ql : String) : linked ql initState :=
  ⟨fun _ => rfl, fun r hr => by cases hr⟩

/-- C2: when the scoring phase is reached for every candidate (no exact or
substring match fires), `fuzzy_search` returns the tracked best candidate
iff that candidate's normalized edit distance is at most the threshold;
the normalized distance is bounded by 1, so with the default threshold 3
every non-empty candidate list yields some candidate, never none. -/
theorem c2_fuzzy_total (query : String) (choices : List Role)
    (hno : ∀ c ∈ choices, strLower query ≠ strLower c.name ∧
      strInStr (strLower query) (strLower c.name) = false) :
    (∀ (th : ℚ) (r : Role),
      fuzzy_search query choices th = some r ↔
        (fuzzy_scan (strLower query) choices).best = some r ∧
          normalized_levenshtein (strLower query) (strLower r.name) ≤ th) ∧
    (∀ a b : String, normalized_levenshtein a b ≤ 1) ∧
    (choices ≠ [] → (fuzzy_search query choices 3).isSome = true) := by
  have hlinked : linked (strLower query) (fuzzy_scan (strLower query) choices) :=
    fuzzy_fold_linked _ choices initState (initState_linked _)
  have hrun : ∀ th : ℚ, fuzzy_search query choices th =
      (match (fuzzy_scan (strLower query) choices).best with
       | none => none
       | some b =>
         if (fuzzy_scan (strLower query) choices).minDist ≤ (th : WithTop ℚ)
         then some b else none) := by
    intro th
    exact fuzzy_aux_run (strLower query) th choices initState hno
  refine ⟨?_, fun a b => normalized_le_one a b, ?_⟩
  · intro th r
    rw [hrun th]
    cases hb : (fuzzy_scan (strLower query) choices).best with
    | none => simp
    | some b =>
      have hd := hlinked.2 b hb
      simp only [hd, WithTop.coe_le_coe]
      by_cases hth : normalized_levenshtein (strLower query) (strLower b.name) ≤ th
      · simp only [if_pos hth, Option.some.injEq]
        constructor
        · rintro rfl
          exact ⟨rfl, hth⟩
        · rintro ⟨hbr, _⟩
          cases hbr
          rfl
      · simp only [if_neg hth]
        constructor
        · intro hfalse
          cases hfalse
        · rintro ⟨hbr, hle⟩
          cases hbr
          exact absurd hle hth
  · intro hne
    obtain ⟨c, cs, rfl⟩ := List.exists_cons_of_ne_nil hne
    have hsome : ∃ r2, (fuzzy_scan (strLower query) (c :: cs)).best = some r2 := by
      have h1 : fuzzy_scan (strLower query) (c :: cs) =
          cs.foldl (fuzzy_step (strLower query))
            (fuzzy_step (strLower query) initState c) := by
        rw [fuzzy_scan, List.foldl_cons]
      rw [h1]
      exact fuzzy_fold_some _ cs _ c (fuzzy_step_init _ c)
    obtain ⟨r2, hr2⟩ := hsome
    have hd := hlinked.2 r2 hr2
    have hle : normalized_levenshtein (strLower query) (strLower r2.name) ≤ 3 :=
      le_trans (normalized_le_one _ _) (by norm_num)
    rw [hrun 3, hr2]
    simp only [hd]
    rw [if_pos (by exact_mod_cast hle)]
    rfl

/-- Witness for C2: a one-candidate list with no exact or substring match
still returns a candidate under the default threshold. -/
theorem c2_fuzzy_total_witness :
    (fuzzy_search "abc" [⟨1, "xyz"⟩] 3).isSome = true :=
  (c2_fuzzy_total "abc" [⟨1, "xyz"⟩] (by decide)).2.2 (by decide)

/-- C7: candidates are checked in order, the exact lowercase equality and
the substring containment each returning immediately on the first
candidate satisfying them (earlier candidates that satisfy neither are
scored and skipped); in particular, for candidates Administrator /
Moderator / Member and query `"admin"`, the result is Administrator by
substring containment. -/
theorem c7_fuzzy_order :
    (∀ (q : String) (th : ℚ) (pre post : List Role) (c : Role),
      (∀ r ∈ pre, strLower q ≠ strLower r.name ∧
        strInStr (strLower q) (strLower r.name) = false) →
      (strLower q = strLower c.name ∨
        strInStr (strLower q) (strLower c.name) = true) →
      fuzzy_search q (pre ++ c :: post) th = some c) ∧
    fuzzy_search "admin"
      [⟨1, "Administrator"⟩, ⟨2, "Moderator"⟩, ⟨3, "Member"⟩] 3 =
      some ⟨1, "Administrator"⟩ := by
  constructor
  · intro q th pre post c hpre hc
    unfold fuzzy_search
    have haux : ∀ (pre2 : List Role) (st : FuzzyState),
        (∀ r ∈ pre2, strLower q ≠ strLower r.name ∧
          strInStr (strLower q) (strLower r.name) = false) →
        fuzzy_aux (strLower q) th (pre2 ++ c :: post) st = some c := by
      intro pre2
      induction pre2 with
      | nil =>
        intro st _
        rw [List.nil_append, fuzzy_aux]
        rcases hc with h | h
        · rw [if_pos h]
        · by_cases he : strLower q = strLower c.name
          · rw [if_pos he]
          · rw [if_neg he, h, if_pos rfl]
      | cons r rest ih =>
        intro st hno
        obtain ⟨hne, hni⟩ := hno r (List.mem_cons_self r rest)
        rw [List.cons_append, fuzzy_aux]
        simp only [if_neg hne, hni, Bool.false_eq_true, if_false]
        exact ih _ (fun r2 hr2 => hno r2 (List.mem_cons_of_mem r hr2))
    exact haux pre initState hpre
  · decide

/-- Witness for C7 at a concrete exact-equality hit behind one
non-matching candidate. -/
theorem c7_fuzzy_order_witness :
    fuzzy_search "Root" ([⟨5, "uvw"⟩] ++ ⟨9, "root"⟩ :: []) 2 =
      some ⟨9, "root"⟩ :=
  c7_fuzzy_order.1 "Root" 2 [⟨5, "uvw"⟩] [] ⟨9, "root"⟩ (by decide)
    (Or.inl (by decide))

end DiscordConv
